import Mathlib

/-!
Verification of the word-of-the-day plugin core (`src/main.js`).

Strings are modelled as `List Char` (JS strings); the host's `JSON.parse`
is modelled by an executable recursive-descent parser; network calls are
modelled by passing the backend's completion text in as an argument and
counting how many requests the code would have issued.
-/

/-- Substring occurrence test: does `p` occur as a contiguous substring of the
second argument?  Models JS `String.prototype.includes`. -/
def containsSub (p : List Char) : List Char → Bool
  | [] => p.isPrefixOf []
  | c :: s => p.isPrefixOf (c :: s) || containsSub p s

/-- Number of positions at which `p` occurs as a contiguous substring. -/
def countOccur (p : List Char) : List Char → Nat
  | [] => 0
  | c :: s => (if p.isPrefixOf (c :: s) then 1 else 0) + countOccur p s

/-- Split a character list into lines at every newline character. -/
def splitLines : List Char → List (List Char)
  | [] => [[]]
  | c :: rest =>
    if c = '\n' then [] :: splitLines rest
    else
      match splitLines rest with
      | [] => [[c]]
      | l :: ls => (c :: l) :: ls

/-- Join pieces with a separator between consecutive pieces and no trailing
separator.  Models JS `Array.prototype.join`. -/
def joinSep (sep : List Char) : List (List Char) → List Char
  | [] => []
  | [x] => x
  | x :: y :: t => x ++ sep ++ joinSep sep (y :: t)

/-- JSON values as produced by the host JSON parser.  Arrays and objects
carry their elements as an inline spine (`arrCons`/`objCons`) so that all
recursion over values is structural.  Number literals keep their lexeme;
none of the verified code inspects numeric values. -/
inductive Json where
  | null : Json
  | bool : Bool → Json
  | num : List Char → Json
  | str : List Char → Json
  | arrNil : Json
  | arrCons : Json → Json → Json
  | objNil : Json
  | objCons : List Char → Json → Json → Json
deriving DecidableEq

/-- Build an array value from a list of elements. -/
def jarr (l : List Json) : Json := l.foldr Json.arrCons Json.arrNil

/-- Build an object value from a list of key/value members. -/
def jobj (l : List (List Char × Json)) : Json :=
  l.foldr (fun kv t => Json.objCons kv.1 kv.2 t) Json.objNil

/-- Is the value a JSON array?  Models JS `Array.isArray`. -/
def Json.isArr : Json → Bool
  | .arrNil => true
  | .arrCons _ _ => true
  | _ => false

/-- The element list of an array value (empty for non-arrays). -/
def Json.elems : Json → List Json
  | .arrCons v tl => v :: tl.elems
  | _ => []

def isJsonWs (c : Char) : Bool :=
  c = ' ' || c = '\t' || c = '\n' || c = '\r'

def skipWs (s : List Char) : List Char := s.dropWhile isJsonWs

def escChar (c : Char) : Option Char :=
  if c = '"' then some '"'
  else if c = '\\' then some '\\'
  else if c = '/' then some '/'
  else if c = 'n' then some '\n'
  else if c = 't' then some '\t'
  else if c = 'r' then some '\r'
  else if c = 'b' then some (Char.ofNat 8)
  else if c = 'f' then some (Char.ofNat 12)
  else none

/-- Parse the body of a JSON string literal (the opening quote already
consumed), returning the decoded characters and the remaining input. -/
def parseStringBody : List Char → Option (List Char × List Char)
  | [] => none
  | '"' :: rest => some ([], rest)
  | '\\' :: c :: rest =>
    match escChar c with
    | some e =>
      match parseStringBody rest with
      | some (t, r) => some (e :: t, r)
      | none => none
    | none => none
  | c :: rest =>
    if c = '\\' then none
    else
      match parseStringBody rest with
      | some (t, r) => some (c :: t, r)
      | none => none

def isDigitCh (c : Char) : Bool := '0' ≤ c && c ≤ '9'

/-- Lex a JSON number, returning its lexeme and the remaining input. -/
def parseNumber (s : List Char) : Option (List Char × List Char) :=
  let (neg, s1) :=
    match s with
    | '-' :: r => (['-'], r)
    | _ => (([] : List Char), s)
  let ds := s1.takeWhile isDigitCh
  if ds.isEmpty then none
  else if 1 < ds.length && ds.head? = some '0' then none
  else
    let s2 := s1.drop ds.length
    let (fracPart, s3) :=
      match s2 with
      | '.' :: r =>
        let fd := r.takeWhile isDigitCh
        if fd.isEmpty then (none, s2) else (some ('.' :: fd), r.drop fd.length)
      | _ => (none, s2)
    match fracPart, s2 with
    | none, '.' :: _ => none
    | _, _ =>
      let (expPart, s4) :=
        match s3 with
        | e :: r =>
          if e = 'e' || e = 'E' then
            let (sgn, r1) :=
              match r with
              | '+' :: r2 => (['+'], r2)
              | '-' :: r2 => (['-'], r2)
              | _ => (([] : List Char), r)
            let ed := r1.takeWhile isDigitCh
            if ed.isEmpty then (none, s3) else (some (e :: sgn ++ ed), r1.drop ed.length)
          else (none, s3)
        | _ => (none, s3)
      match expPart, s3 with
      | none, e :: _ =>
        if e = 'e' || e = 'E' then none
        else some (neg ++ ds ++ fracPart.getD [] , s3)
      | _, _ => some (neg ++ ds ++ fracPart.getD [] ++ expPart.getD [], s4)

/-- Parsing mode: a single value, array elements (producing the array spine),
or object members (producing the object spine). -/
inductive PMode where
  | val : PMode
  | elems : PMode
  | members : PMode

/-- Fuel-indexed recursive-descent JSON parser (single structurally recursive
function so that the kernel can evaluate it).
Modelled from the spec: the host `JSON.parse` collaborator (step 4 of the
adapter contract); `\u` escapes are not decoded by this model. -/
def parseStep : Nat → PMode → List Char → Option (Json × List Char)
  | 0, _, _ => none
  | fuel + 1, .val, s =>
    match skipWs s with
    | [] => none
    | '"' :: rest =>
      match parseStringBody rest with
      | some (t, r) => some (.str t, r)
      | none => none
    | '[' :: rest =>
      match skipWs rest with
      | ']' :: r => some (.arrNil, r)
      | r => parseStep fuel .elems r
    | '{' :: rest =>
      match skipWs rest with
      | '}' :: r => some (.objNil, r)
      | r => parseStep fuel .members r
    | s' =>
      if ['t', 'r', 'u', 'e'].isPrefixOf s' then some (.bool true, s'.drop 4)
      else if ['f', 'a', 'l', 's', 'e'].isPrefixOf s' then some (.bool false, s'.drop 5)
      else if ['n', 'u', 'l', 'l'].isPrefixOf s' then some (.null, s'.drop 4)
      else
        match parseNumber s' with
        | some (lx, r) => some (.num lx, r)
        | none => none
  | fuel + 1, .elems, s =>
    match parseStep fuel .val s with
    | some (v, r) =>
      match skipWs r with
      | ',' :: r2 =>
        match parseStep fuel .elems r2 with
        | some (vs, r3) => some (.arrCons v vs, r3)
        | none => none
      | ']' :: r2 => some (.arrCons v .arrNil, r2)
      | _ => none
    | none => none
  | fuel + 1, .members, s =>
    match skipWs s with
    | '"' :: rest =>
      match parseStringBody rest with
      | some (k, r) =>
        match skipWs r with
        | ':' :: r2 =>
          match parseStep fuel .val r2 with
          | some (v, r3) =>
            match skipWs r3 with
            | ',' :: r4 =>
              match parseStep fuel .members r4 with
              | some (ms, r5) => some (.objCons k v ms, r5)
              | none => none
            | '}' :: r4 => some (.objCons k v .objNil, r4)
            | _ => none
          | none => none
        | _ => none
      | none => none
    | _ => none

/-- Modelled from the spec: the host `JSON.parse` (an external collaborator of
the adapters); returns the parsed value when the whole input is one JSON
document, and `none` on malformed input. -/
def parseJson (s : List Char) : Option Json :=
  match parseStep (s.length + 1) .val s with
  | some (j, rest) => if (skipWs rest).isEmpty then some j else none
  | none => none

example : parseJson ("[]").data = some (jarr []) := by decide
example : parseJson ("[1, 2]").data =
    some (jarr [.num ("1").data, .num ("2").data]) := by decide
example : parseJson ("").data = none := by decide
example : parseJson ("[1]b[2]").data = none := by decide
example : parseJson ("\x7b\"a\":[2]\x7d").data =
    some (jobj [(("a").data, jarr [.num ("2").data])]) := by decide
example : parseJson ("[\x7b\"word\": \"hi\"\x7d]").data =
    some (jarr [jobj [(("word").data, .str ("hi").data)]]) := by decide

/-- Difficulty tiers, a closed enum in the settings UI (`src/main.js` settings
dropdown offers exactly these four values). -/
inductive Difficulty where
  | Beginner : Difficulty
  | Intermediate : Difficulty
  | Advanced : Difficulty
  | Fluent : Difficulty
deriving DecidableEq

/-- The difficulty string used in prompts (the dropdown stores these). -/
def diffStr : Difficulty → List Char
  | .Beginner => ("Beginner").data
  | .Intermediate => ("Intermediate").data
  | .Advanced => ("Advanced").data
  | .Fluent => ("Fluent").data

/-- One configured language (`settings.languages` entries). -/
structure LanguageConfig where
  name : List Char
  difficulty : Difficulty
  enabled : Bool
deriving DecidableEq

/-- Plugin settings: the fields read by the verified core of `src/main.js`.
The word history is a string-keyed map modelled as an association list. -/
structure Settings where
  provider : List Char
  claudeApiKey : List Char
  openaiApiKey : List Char
  geminiApiKey : List Char
  wordHistoryLimit : Nat
  wordHistory : List (List Char × List (List Char))
  languages : List LanguageConfig
deriving DecidableEq

/-- Lookup in a string-keyed object modelled as an association list. -/
def hGet : List (List Char × List (List Char)) → List Char → Option (List (List Char))
  | [], _ => none
  | (k, v) :: rest, key => if k = key then some v else hGet rest key

/-- Assignment `obj[key] = v` on the association-list model of an object. -/
def hSet : List (List Char × List (List Char)) → List Char → List (List Char) →
    List (List Char × List (List Char))
  | [], key, v => [(key, v)]
  | (k, w) :: rest, key, v => if k = key then (key, v) :: rest else (k, w) :: hSet rest key v

/-- `getActiveApiKey` (src/main.js:75): the credential of the selected
provider, or null for an unrecognized provider tag. -/
def getActiveApiKey (s : Settings) : Option (List Char) :=
  if s.provider = ("claude").data then some s.claudeApiKey
  else if s.provider = ("openai").data then some s.openaiApiKey
  else if s.provider = ("gemini").data then some s.geminiApiKey
  else none

/-- JS truthiness test applied to the active API key: `!apiKey` is true for
a missing key (null) and for the empty string. -/
def jsFalsy : Option (List Char) → Bool
  | none => true
  | some k => k.isEmpty

/-- JS `word.toLowerCase()` on the character-list model. -/
def toLowerStr (w : List Char) : List Char := w.map Char.toLower

/-- The effective history limit `this.settings.wordHistoryLimit || 100`
(src/main.js:100): a falsy (zero) stored limit falls back to 100. -/
def effLimit (s : Settings) : Nat :=
  if s.wordHistoryLimit = 0 then 100 else s.wordHistoryLimit

/-- `getWordHistory` (src/main.js:107): the language's history list, or empty
when the language is unseen. -/
def getWordHistory (s : Settings) (language : List Char) : List (List Char) :=
  (hGet s.wordHistory language).getD []

/-- `addWordToHistory` (src/main.js:88): append the lowercase form if not
already present, then truncate to the most recent `limit` entries. -/
def addWordToHistory (s : Settings) (language word : List Char) : Settings :=
  let h := (hGet s.wordHistory language).getD []
  if toLowerStr word ∈ h then s
  else
    let h1 := h ++ [toLowerStr word]
    let limit := effLimit s
    let h2 := if limit < h1.length then h1.drop (h1.length - limit) else h1
    { s with wordHistory := hSet s.wordHistory language h2 }

/-- Provider-error stages from the spec taxonomy (§4.3). -/
inductive Stage where
  | auth : Stage
  | network : Stage
  | shape : Stage
  | parse : Stage
deriving DecidableEq

/-- Errors escaping `fetchWordsFromAI`: an adapter failure or the
`Invalid AI provider selected` throw of the default dispatch branch. -/
inductive FetchErr where
  | providerErr : Stage → FetchErr
  | invalidProvider : FetchErr
deriving DecidableEq

/-- Shared tail of the Claude and OpenAI adapters (src/main.js:270-289 and
318-339): reject a missing or empty completion (shape), parse it as JSON
(parse failure otherwise), and reject any non-array result (shape). -/
def directJsonAdapter (content : Option (List Char)) : Except Stage (List Json) :=
  match content with
  | none => .error .shape
  | some c =>
    if c.isEmpty then .error .shape
    else
      match parseJson c with
      | none => .error .parse
      | some j => if j.isArr then .ok j.elems else .error .shape

/-- `fetchWordsFromClaude` (src/main.js:246) viewed from the completion text
extracted out of the response envelope (`none` models a missing field path). -/
def fetchWordsFromClaude (content : Option (List Char)) : Except Stage (List Json) :=
  directJsonAdapter content

/-- `fetchWordsFromOpenAI` (src/main.js:297) viewed from the completion text. -/
def fetchWordsFromOpenAI (content : Option (List Char)) : Except Stage (List Json) :=
  directJsonAdapter content

/-- Index of the first occurrence of `c`, if any. -/
def firstIdxOf (c : Char) (s : List Char) : Option Nat :=
  s.findIdx? (fun x => x = c)

/-- Index of the last occurrence of `c`, if any. -/
def lastIdxOf (c : Char) (s : List Char) : Option Nat :=
  match s.reverse.findIdx? (fun x => x = c) with
  | some k => some (s.length - 1 - k)
  | none => none

/-- The leftmost-greedy match of the regex `\[[\s\S]*\]` (src/main.js:378):
the segment from the first `[` to the last `]`, when the latter comes after
the former. -/
def geminiMatch (s : List Char) : Option (List Char) :=
  match firstIdxOf '[' s, lastIdxOf ']' s with
  | some i, some j => if i < j then some ((s.drop i).take (j - i + 1)) else none
  | _, _ => none

/-- `fetchWordsFromGemini` (src/main.js:347) viewed from the completion text:
additionally reduces the text to the regex match before parsing. -/
def fetchWordsFromGemini (content : Option (List Char)) : Except Stage (List Json) :=
  match content with
  | none => .error .shape
  | some c =>
    if c.isEmpty then .error .shape
    else
      match geminiMatch c with
      | none => .error .shape
      | some m =>
        match parseJson m with
        | none => .error .parse
        | some j => if j.isArr then .ok j.elems else .error .shape

/-- `fetchWordsFromAI` (src/main.js:233): string-keyed dispatch on the
provider tag.  The second component counts network requests issued (each
adapter issues exactly one; the default branch throws before any request). -/
def fetchWordsFromAI (s : Settings) (content : Option (List Char)) :
    Except FetchErr (List Json) × Nat :=
  if s.provider = ("claude").data then
    ((fetchWordsFromClaude content).mapError .providerErr, 1)
  else if s.provider = ("openai").data then
    ((fetchWordsFromOpenAI content).mapError .providerErr, 1)
  else if s.provider = ("gemini").data then
    ((fetchWordsFromGemini content).mapError .providerErr, 1)
  else
    (.error .invalidProvider, 0)

/-- Property lookup on a parsed JSON value (JS property access on the values
`JSON.parse` yields): `undefined` (`none`) unless the value is an object that
carries the key. -/
def getField : Json → List Char → Option Json
  | .objCons k v tl, key => if k = key then some v else getField tl key
  | _, _ => none

/-- JS string coercion of a JSON value (template literals and object keys):
strings stay themselves, arrays join their coerced elements with commas
(null elements become empty), objects print as `[object Object]`. -/
def tmplVal : Json → List Char
  | .null => ("null").data
  | .bool true => ("true").data
  | .bool false => ("false").data
  | .num lx => lx
  | .str t => t
  | .arrNil => []
  | .arrCons .null .arrNil => []
  | .arrCons .null (.arrCons v tl) => (",").data ++ tmplVal (.arrCons v tl)
  | .arrCons v .arrNil => tmplVal v
  | .arrCons v (.arrCons w tl) => tmplVal v ++ (",").data ++ tmplVal (.arrCons w tl)
  | .arrCons v _ => tmplVal v
  | .objNil => ("[object Object]").data
  | .objCons _ _ _ => ("[object Object]").data

/-- `${...}` interpolation of a possibly-undefined JS value. -/
def jsTemplate : Option Json → List Char
  | none => ("undefined").data
  | some v => tmplVal v

/-- Interpolated field of one word record, as used by the markdown renderer. -/
def tmplField (wd : Json) (key : List Char) : List Char :=
  jsTemplate (getField wd key)

/-- One rendered group of the markdown block (loop body of
src/main.js:214-223). -/
def renderGroupJ (wd : Json) : List Char :=
  ("\n> **").data ++ tmplField wd (("language").data) ++ (":**\n> **").data ++
    tmplField wd (("word").data) ++ ("**\n> \n> *Definition:* ").data ++
    tmplField wd (("definition").data) ++ ("\n> \n> *Example:* ").data ++
    tmplField wd (("example").data)

/-- The group loop: a `\n> ` separator after every non-final group
(`index < words.length - 1` in the source). -/
def renderLoop : List Json → List Char
  | [] => []
  | [wd] => renderGroupJ wd
  | wd :: wd2 :: rest => renderGroupJ wd ++ ("\n> ").data ++ renderLoop (wd2 :: rest)

/-- The full markdown block (src/main.js:212-225). -/
def renderWords (words : List Json) : List Char :=
  ("> [!QUOTE] Vocabulary\n> ").data ++ renderLoop words

/-- The history-recording loop `words.forEach(...)` (src/main.js:207-209).
`wordData.language` is coerced to an object key; `word.toLowerCase()` throws
a TypeError unless the word field is a string (second component: did the
loop throw?).  Accessing a property of a null record throws immediately. -/
def runForEach : Settings → List Json → Settings × Bool
  | s, [] => (s, false)
  | s, wd :: rest =>
    match wd with
    | .null => (s, true)
    | _ =>
      let lang := jsTemplate (getField wd (("language").data))
      match getField wd (("word").data) with
      | some (.str w) => runForEach (addWordToHistory s lang w) rest
      | _ =>
        ({ s with wordHistory :=
            match hGet s.wordHistory lang with
            | some _ => s.wordHistory
            | none => hSet s.wordHistory lang [] }, true)

/-- `fetchAllWordsOfTheDay` (src/main.js:185): returns the rendered markdown
(or null), the settings after the call (history mutations), and the number of
network requests issued. -/
def fetchAllWordsOfTheDay (s : Settings) (content : Option (List Char)) :
    Option (List Char) × Settings × Nat :=
  let apiKey := getActiveApiKey s
  if jsFalsy apiKey then (none, s, 0)
  else
    let enabledLanguages := s.languages.filter (fun l => l.enabled)
    if enabledLanguages.length = 0 then (none, s, 0)
    else
      match fetchWordsFromAI s content with
      | (.error _, n) => (none, s, n)
      | (.ok words, n) =>
        if words.length = 0 then (none, s, n)
        else
          match runForEach s words with
          | (s', true) => (none, s', n)
          | (s', false) => (some (renderWords words), s', n)

/-- The fixed sentinel header substring used for duplicate detection. -/
def sentinel : List Char := ("> [!QUOTE] Vocabulary").data

/-- `appendToDailyNote` (src/main.js:469) at the note-content level: no-op if
the content already holds the sentinel, else append a blank line and the
block. -/
def appendToDailyNote (content markdownText : List Char) : List Char :=
  if containsSub sentinel content then content
  else content ++ '\n' :: '\n' :: markdownText

/-- The command callback (src/main.js:34-39): fetch, and append to the daily
note only when the fetch produced a block. -/
def runFetchCommand (s : Settings) (content : Option (List Char)) (note : List Char) :
    List Char :=
  match (fetchAllWordsOfTheDay s content).1 with
  | some md => appendToDailyNote note md
  | none => note

/-- One phrasing variation of the prompt (src/main.js:418-439). -/
structure Variation where
  intro : List Char
  task : List Char
  emphasis : List Char
deriving DecidableEq

/-- The four phrasing variations, in source order. -/
def variationsList : List Variation :=
  [ { intro := ("Generate a word of the day for each of the following languages and difficulty levels:").data,
      task := ("For each language, provide:\n1. A word appropriate for the specified difficulty level\n2. A clear, concise definition\n3. An example sentence using the word").data,
      emphasis := ("IMPORTANT: Do NOT use any of the previously used words listed above. Generate completely new and different words.").data },
    { intro := ("Please provide a vocabulary word for each language below with the specified proficiency level:").data,
      task := ("For each language, include:\n1. An appropriate word matching the difficulty level\n2. A concise definition\n3. A practical example sentence").data,
      emphasis := ("CRITICAL: Avoid all previously used words mentioned above. Choose fresh, unique vocabulary.").data },
    { intro := ("Create daily vocabulary entries for these languages at the given difficulty levels:").data,
      task := ("Each entry should contain:\n1. A word suited to the specified difficulty\n2. A straightforward definition\n3. An illustrative example sentence").data,
      emphasis := ("NOTE: The words listed above have been used before. Select completely different vocabulary items.").data },
    { intro := ("Supply a new vocabulary word for each of these language/difficulty combinations:").data,
      task := ("Provide for each:\n1. A word matching the difficulty specification\n2. A clear definition\n3. A contextual example sentence").data,
      emphasis := ("ESSENTIAL: Do not reuse any words from the previously used list above. Pick entirely new words.").data } ]

/-- The variation picked by `Math.floor(Math.random() * variations.length)`:
the random draw is modelled as an arbitrary index below 4. -/
def variationAt (vi : Fin 4) : Variation :=
  variationsList.getD vi.val ⟨[], [], []⟩

/-- `history.slice(-20)`: the at most 20 most recent history entries. -/
def recentWords (h : List (List Char)) : List (List Char) :=
  h.drop (h.length - 20)

/-- The bullet line `- ${lang.name} (${lang.difficulty} level)` of one
language (src/main.js:408). -/
def bulletLine (l : LanguageConfig) : List Char :=
  ("- ").data ++ l.name ++ (" (").data ++ diffStr l.difficulty ++ (" level)").data

/-- The request block for one language (src/main.js:406-416): the bullet
line, plus an AVOID line when history exists. -/
def languageRequest (s : Settings) (lang : LanguageConfig) : List Char :=
  let history := getWordHistory s lang.name
  let request := bulletLine lang
  if 0 < history.length then
    request ++ ("\n  Previously used words to AVOID: ").data ++
      joinSep (", ").data (recentWords history)
  else request

/-- The constant tail of the prompt template (src/main.js:450-466), from the
difficulty guidelines to the end. -/
def promptTail : List Char :=
  ("\n\nDifficulty guidelines:\n- Beginner: Common everyday words, simple meanings\n- Intermediate: Less common but useful words, moderate complexity\n- Advanced: Sophisticated vocabulary, nuanced meanings\n- Fluent: Rare, literary, or highly specialized words\n\nReturn ONLY a JSON array with this exact structure (no additional text, no markdown formatting):\n[\n  \x7b\n    \"language\": \"Language Name\",\n    \"word\": \"the word\",\n    \"definition\": \"clear definition\",\n    \"example\": \"example sentence using the word\"\n  \x7d\n]\n\nMake sure the words are interesting, useful, and appropriate for language learners at the specified level. Vary the types of words (nouns, verbs, adjectives, etc.) for variety.").data

/-- `buildPrompt` (src/main.js:405): the full prompt text for the given
languages, under phrasing variation `vi`. -/
def buildPrompt (s : Settings) (languages : List LanguageConfig) (vi : Fin 4) : List Char :=
  let v := variationAt vi
  let languageRequests := joinSep ("\n").data (languages.map (languageRequest s))
  v.intro ++ ("\n").data ++ languageRequests ++ ("\n\n").data ++ v.task ++
    ("\n\n").data ++ v.emphasis ++ promptTail

/-! ### Substring counting lemmas (daily-note writer) -/

theorem containsSub_iff_pos (p : List Char) (hp : p ≠ []) (s : List Char) :
    containsSub p s = true ↔ 0 < countOccur p s := by
  induction s with
  | nil =>
    obtain ⟨ph, pt, rfl⟩ : ∃ ph pt, p = ph :: pt := by
      cases p with
      | nil => exact absurd rfl hp
      | cons ph pt => exact ⟨ph, pt, rfl⟩
    simp [containsSub, countOccur, List.isPrefixOf]
  | cons c s ih =>
    simp only [containsSub, countOccur, Bool.or_eq_true]
    constructor
    · rintro (h | h)
      · simp [h]
      · have := ih.mp h
        omega
    · intro h
      by_cases hpre : p.isPrefixOf (c :: s)
      · exact Or.inl hpre
      · right
        apply ih.mpr
        simp [hpre] at h
        exact h

theorem isPrefixOf_append_nl (p : List Char) (hnl : '\n' ∉ p) (c rest : List Char) :
    p.isPrefixOf (c ++ '\n' :: rest) = p.isPrefixOf c := by
  induction p generalizing c with
  | nil => simp [List.isPrefixOf]
  | cons ph pt ih =>
    have hph : ph ≠ '\n' := fun h => hnl (h ▸ List.mem_cons_self ph pt)
    have hpt : '\n' ∉ pt := fun h => hnl (List.mem_cons_of_mem ph h)
    cases c with
    | nil =>
      simp [List.isPrefixOf, hph]
    | cons ch c' =>
      simp [List.isPrefixOf, ih hpt]

theorem countOccur_append_nl (p : List Char) (hp : p ≠ []) (hnl : '\n' ∉ p)
    (a b : List Char) :
    countOccur p (a ++ '\n' :: b) = countOccur p a + countOccur p b := by
  induction a with
  | nil =>
    obtain ⟨ph, pt, rfl⟩ : ∃ ph pt, p = ph :: pt := by
      cases p with
      | nil => exact absurd rfl hp
      | cons ph pt => exact ⟨ph, pt, rfl⟩
    have hph : ph ≠ '\n' := fun h => hnl (h ▸ List.mem_cons_self ph pt)
    simp [countOccur, List.isPrefixOf, hph]
  | cons ch a' ih =>
    have h2 := isPrefixOf_append_nl p hnl (ch :: a') b
    rw [List.cons_append] at h2
    simp only [List.cons_append, countOccur, List.append_eq, ih, h2]
    omega

theorem sentinel_ne_nil : sentinel ≠ [] := by decide

theorem nl_not_mem_sentinel : '\n' ∉ sentinel := by decide

/-- C1 counterexample: on a note that already holds two copies of the
sentinel, two `appendToDailyNote` calls with a sentinel-bearing block leave
two copies, not exactly one, so the unconditional claim fails. -/
theorem appendToDailyNote_twice_two_sentinels_cex :
    containsSub sentinel sentinel = true ∧
    countOccur sentinel
      (appendToDailyNote (appendToDailyNote (sentinel ++ sentinel) sentinel) sentinel) = 2 := by
  decide

/-- C1 (amended): if the note does not yet contain the sentinel and the block
contains it exactly once, then the first `appendToDailyNote` appends
`"\n\n" + block`, the second call is a no-op, and the final content holds
exactly one copy of the sentinel header. -/
theorem appendToDailyNote_append_once (c b : List Char)
    (hc : countOccur sentinel c = 0) (hb : countOccur sentinel b = 1) :
    appendToDailyNote c b = c ++ '\n' :: '\n' :: b ∧
    appendToDailyNote (appendToDailyNote c b) b = appendToDailyNote c b ∧
    countOccur sentinel (appendToDailyNote (appendToDailyNote c b) b) = 1 := by
  have hcontc : containsSub sentinel c = false := by
    cases h : containsSub sentinel c
    · rfl
    · have := (containsSub_iff_pos sentinel sentinel_ne_nil c).mp h
      omega
  have h1 : appendToDailyNote c b = c ++ '\n' :: '\n' :: b := by
    simp [appendToDailyNote, hcontc]
  have hA := countOccur_append_nl sentinel sentinel_ne_nil nl_not_mem_sentinel c ('\n' :: b)
  have hB := countOccur_append_nl sentinel sentinel_ne_nil nl_not_mem_sentinel [] b
  rw [List.nil_append] at hB
  have hnil : countOccur sentinel [] = 0 := rfl
  have hcount1 : countOccur sentinel (c ++ '\n' :: '\n' :: b) = 1 := by omega
  have hcont2 : containsSub sentinel (c ++ '\n' :: '\n' :: b) = true :=
    (containsSub_iff_pos sentinel sentinel_ne_nil _).mpr (by omega)
  have h2 : appendToDailyNote (c ++ '\n' :: '\n' :: b) b = c ++ '\n' :: '\n' :: b := by
    simp [appendToDailyNote, hcont2]
  exact ⟨h1, by rw [h1, h2], by rw [h1, h2, hcount1]⟩

/-- C1 witness: the amended theorem applied to the empty note and the bare
sentinel block. -/
theorem appendToDailyNote_append_once_witness :
    countOccur sentinel [] = 0 ∧ countOccur sentinel sentinel = 1 ∧
    appendToDailyNote (appendToDailyNote [] sentinel) sentinel =
      appendToDailyNote [] sentinel := by
  refine ⟨rfl, by decide, ?_⟩
  exact (appendToDailyNote_append_once [] sentinel rfl (by decide)).2.1

/-! ### Credential guard, empty results, invalid provider -/

/-- A sample settings value used by concrete witnesses. -/
def sampleSettings : Settings :=
  { provider := ("claude").data
    claudeApiKey := []
    openaiApiKey := []
    geminiApiKey := []
    wordHistoryLimit := 100
    wordHistory := []
    languages := [⟨("English").data, .Fluent, true⟩] }

/-- Sample settings with a configured Claude credential. -/
def sampleSettingsKey : Settings :=
  { sampleSettings with claudeApiKey := ("k").data }

/-- C7: a missing or empty credential for the active provider makes
`fetchAllWordsOfTheDay` return null with zero network requests and the
settings (hence the word history) unchanged. -/
theorem fetchAll_no_credential (s : Settings) (content : Option (List Char))
    (h : getActiveApiKey s = none ∨ getActiveApiKey s = some []) :
    fetchAllWordsOfTheDay s content = (none, s, 0) := by
  have hf : jsFalsy (getActiveApiKey s) = true := by
    rcases h with h | h <;> rw [h] <;> rfl
  simp [fetchAllWordsOfTheDay, hf]

/-- C7 witness: empty Claude key, concrete content. -/
theorem fetchAll_no_credential_witness :
    fetchAllWordsOfTheDay sampleSettings (some (("[]").data)) =
      (none, sampleSettings, 0) :=
  fetchAll_no_credential sampleSettings (some (("[]").data)) (Or.inr rfl)

/-- C9: when the adapter succeeds with an empty array, `fetchAllWordsOfTheDay`
returns null, leaves the settings (hence the history) unchanged, and the
command callback leaves the note untouched. -/
theorem fetchAll_empty_words (s : Settings) (content : Option (List Char)) (n : Nat)
    (note : List Char)
    (hok : fetchWordsFromAI s content = (.ok [], n)) :
    (fetchAllWordsOfTheDay s content).1 = none ∧
    (fetchAllWordsOfTheDay s content).2.1 = s ∧
    runFetchCommand s content note = note := by
  have key : (fetchAllWordsOfTheDay s content).1 = none ∧
      (fetchAllWordsOfTheDay s content).2.1 = s := by
    unfold fetchAllWordsOfTheDay
    by_cases h1 : jsFalsy (getActiveApiKey s) = true
    · simp [h1]
    · simp only [Bool.not_eq_true] at h1
      by_cases h2 : (s.languages.filter (fun l => l.enabled)).length = 0
      · simp [h1, h2]
      · simp [h1, h2, hok]
  refine ⟨key.1, key.2, ?_⟩
  unfold runFetchCommand
  rw [key.1]

/-- C9 witness: Claude provider with a key, a `[]` completion. -/
theorem fetchAll_empty_words_witness :
    (fetchAllWordsOfTheDay sampleSettingsKey (some (("[]").data))).1 = none ∧
    (fetchAllWordsOfTheDay sampleSettingsKey (some (("[]").data))).2.1 = sampleSettingsKey ∧
    runFetchCommand sampleSettingsKey (some (("[]").data)) (("notes").data) =
      ("notes").data :=
  fetchAll_empty_words sampleSettingsKey (some (("[]").data)) 1 (("notes").data) rfl

/-- C10: an unrecognized provider tag makes `getActiveApiKey` return null, so
`fetchAllWordsOfTheDay` stops at the credential guard with zero requests and
unchanged settings; conversely, whenever the credential guard passes the
provider tag is one of the three dispatched ones, so the
`Invalid AI provider selected` default branch is unreachable from
`fetchAllWordsOfTheDay`. -/
theorem invalid_provider_guard (s s' : Settings) (content : Option (List Char))
    (hp : s.provider ∉ [("claude").data, ("openai").data, ("gemini").data])
    (hg : jsFalsy (getActiveApiKey s') = false) :
    getActiveApiKey s = none ∧ fetchAllWordsOfTheDay s content = (none, s, 0) ∧
    s'.provider ∈ [("claude").data, ("openai").data, ("gemini").data] := by
  simp only [List.mem_cons, List.mem_singleton, not_or] at hp
  obtain ⟨hc, ho, hgm⟩ := hp
  have hkey : getActiveApiKey s = none := by
    simp [getActiveApiKey, hc, ho, hgm]
  refine ⟨hkey, fetchAll_no_credential s content (Or.inl hkey), ?_⟩
  by_contra hmem
  simp only [List.mem_cons, List.mem_singleton, not_or] at hmem
  obtain ⟨hc', ho', hg'⟩ := hmem
  have : getActiveApiKey s' = none := by
    simp [getActiveApiKey, hc', ho', hg']
  rw [this] at hg
  exact absurd hg (by decide)

/-- C10 witness: provider tag `grok` for the guard side, a configured Claude
provider for the reachability side. -/
theorem invalid_provider_guard_witness :
    getActiveApiKey { sampleSettings with provider := ("grok").data } = none ∧
    fetchAllWordsOfTheDay { sampleSettings with provider := ("grok").data }
      (some (("[]").data)) =
      (none, { sampleSettings with provider := ("grok").data }, 0) ∧
    sampleSettingsKey.provider ∈ [("claude").data, ("openai").data, ("gemini").data] :=
  invalid_provider_guard { sampleSettings with provider := ("grok").data }
    sampleSettingsKey (some (("[]").data)) (by decide) rfl

/-! ### Non-array completions (adapter shape errors) -/

/-- C4 counterexample: for the Gemini backend, the valid-JSON non-array
completion `{"a":[2]}` does not produce a shape error — the regex step
extracts `[2]` and the adapter succeeds. -/
theorem gemini_nonarray_ok_cex :
    parseJson (("\x7b\"a\":[2]\x7d").data) =
      some (jobj [(("a").data, jarr [.num ("2").data])]) ∧
    (jobj [(("a").data, jarr [.num ("2").data])]).isArr = false ∧
    fetchWordsFromGemini (some (("\x7b\"a\":[2]\x7d").data)) =
      .ok [.num ("2").data] :=
  ⟨rfl, rfl, rfl⟩

/-- C4 (amended): a valid-JSON non-array completion yields a shape-stage
error and a null `fetchAllWordsOfTheDay` with unchanged settings for the
Claude and OpenAI backends, and for the Gemini backend when the completion
has no `[`...`]` segment for the regex to extract. -/
theorem adapter_nonarray_shape (s : Settings) (c : List Char) (j : Json)
    (hparse : parseJson c = some j) (hnarr : j.isArr = false)
    (hprov : s.provider = ("claude").data ∨ s.provider = ("openai").data ∨
      (s.provider = ("gemini").data ∧ geminiMatch c = none)) :
    fetchWordsFromAI s (some c) = (.error (.providerErr .shape), 1) ∧
    (fetchAllWordsOfTheDay s (some c)).1 = none ∧
    (fetchAllWordsOfTheDay s (some c)).2.1 = s := by
  have hcne : c.isEmpty = false := by
    cases c with
    | nil =>
      rw [show parseJson [] = none from rfl] at hparse
      cases hparse
    | cons a t => rfl
  have hne1 : ("openai").data ≠ ("claude").data := by decide
  have hne2 : ("gemini").data ≠ ("claude").data := by decide
  have hne3 : ("gemini").data ≠ ("openai").data := by decide
  have hada : fetchWordsFromAI s (some c) = (.error (.providerErr .shape), 1) := by
    rcases hprov with h | h | ⟨h, hm⟩
    · simp [fetchWordsFromAI, h, fetchWordsFromClaude, directJsonAdapter, hcne,
        hparse, hnarr, Except.mapError]
    · simp [fetchWordsFromAI, h, hne1, fetchWordsFromOpenAI, directJsonAdapter,
        hcne, hparse, hnarr, Except.mapError]
    · simp [fetchWordsFromAI, h, hne2, hne3, fetchWordsFromGemini, hcne, hm,
        Except.mapError]
  have hfa : (fetchAllWordsOfTheDay s (some c)).1 = none ∧
      (fetchAllWordsOfTheDay s (some c)).2.1 = s := by
    unfold fetchAllWordsOfTheDay
    by_cases h1 : jsFalsy (getActiveApiKey s) = true
    · simp [h1]
    · simp only [Bool.not_eq_true] at h1
      by_cases h2 : (s.languages.filter (fun l => l.enabled)).length = 0
      · simp [h1, h2]
      · simp [h1, h2, hada]
  exact ⟨hada, hfa.1, hfa.2⟩

/-- C4 witness: Claude provider with a key and the completion `{}`. -/
theorem adapter_nonarray_shape_witness :
    fetchWordsFromAI sampleSettingsKey (some (("\x7b\x7d").data)) =
      (.error (.providerErr .shape), 1) ∧
    (fetchAllWordsOfTheDay sampleSettingsKey (some (("\x7b\x7d").data))).1 = none ∧
    (fetchAllWordsOfTheDay sampleSettingsKey (some (("\x7b\x7d").data))).2.1 =
      sampleSettingsKey :=
  adapter_nonarray_shape sampleSettingsKey (("\x7b\x7d").data) .objNil rfl rfl
    (Or.inl rfl)

/-! ### Rendering the markdown block -/

/-- The spec's WordEntry record (§3). -/
structure WordEntry where
  language : List Char
  word : List Char
  definition : List Char
  «example» : List Char
deriving DecidableEq

/-- A WordEntry as the JSON object a provider returns for it. -/
def entryJson (e : WordEntry) : Json :=
  jobj [(("language").data, .str e.language), (("word").data, .str e.word),
    (("definition").data, .str e.definition), (("example").data, .str e.«example»)]

/-- One rendered group as described by the spec: bolded language-name line,
bolded word line, Definition line, Example line. -/
def specGroup (e : WordEntry) : List Char :=
  ("\n> **").data ++ e.language ++ (":**\n> **").data ++ e.word ++
    ("**\n> \n> *Definition:* ").data ++ e.definition ++
    ("\n> \n> *Example:* ").data ++ e.«example»

theorem renderGroupJ_entryJson (e : WordEntry) :
    renderGroupJ (entryJson e) = specGroup e := rfl

theorem renderLoop_map (entries : List WordEntry) :
    renderLoop (entries.map entryJson) =
      joinSep (("\n> ").data) (entries.map specGroup) := by
  induction entries with
  | nil => rfl
  | cons e rest ih =>
    cases rest with
    | nil => simp [renderLoop, joinSep, renderGroupJ_entryJson]
    | cons e2 rest2 =>
      simp only [List.map_cons] at ih ⊢
      simp only [renderLoop, joinSep, renderGroupJ_entryJson, ih]

theorem runForEach_cons_entry (s : Settings) (e : WordEntry) (ws : List Json) :
    runForEach s (entryJson e :: ws) =
      runForEach (addWordToHistory s e.language e.word) ws := rfl

theorem runForEach_entries (entries : List WordEntry) :
    ∀ s : Settings, (runForEach s (entries.map entryJson)).2 = false := by
  induction entries with
  | nil => intro s; rfl
  | cons e rest ih =>
    intro s
    rw [List.map_cons, runForEach_cons_entry]
    exact ih _

/-- C2: when the provider returns a non-empty list of well-formed word
entries, `fetchAllWordsOfTheDay` returns the sentinel header followed by one
group per entry in provider order, groups separated by `\n> ` with no
trailing separator. -/
theorem fetchAll_renders_block (s : Settings) (content : Option (List Char))
    (entries : List WordEntry) (n : Nat)
    (hne : entries ≠ [])
    (hok : fetchWordsFromAI s content = (.ok (entries.map entryJson), n))
    (hkey : jsFalsy (getActiveApiKey s) = false)
    (hlang : (s.languages.filter (fun l => l.enabled)).length ≠ 0) :
    (fetchAllWordsOfTheDay s content).1 =
      some ((("> [!QUOTE] Vocabulary\n> ").data) ++
        joinSep (("\n> ").data) (entries.map specGroup)) := by
  have hlen : (entries.map entryJson).length ≠ 0 := by
    simpa [List.length_eq_zero] using hne
  rcases hrf : runForEach s (entries.map entryJson) with ⟨s1, b⟩
  have h2 := runForEach_entries entries s
  rw [hrf] at h2
  simp only at h2
  subst h2
  simp [fetchAllWordsOfTheDay, hkey, hlang, hok, hlen, hne, hrf, renderWords,
    renderLoop_map]

/-- C2 witness: the end-to-end serendipity scenario, with the rendered block
fully expanded. -/
theorem fetchAll_renders_block_witness :
    (fetchAllWordsOfTheDay sampleSettingsKey
      (some (("[\x7b\"language\":\"English\",\"word\":\"serendipity\",\"definition\":\"D\",\"example\":\"E\"\x7d]").data))).1 =
      some (("> [!QUOTE] Vocabulary\n> \n> **English:**\n> **serendipity**\n> \n> *Definition:* D\n> \n> *Example:* E").data) :=
  (fetchAll_renders_block sampleSettingsKey
    (some (("[\x7b\"language\":\"English\",\"word\":\"serendipity\",\"definition\":\"D\",\"example\":\"E\"\x7d]").data))
    [⟨("English").data, ("serendipity").data, ("D").data, ("E").data⟩] 1
    (List.cons_ne_nil _ _) rfl rfl (by decide)).trans rfl

/-! ### History store -/

theorem hGet_hSet_self (m : List (List Char × List (List Char))) (k : List Char)
    (v : List (List Char)) : hGet (hSet m k v) k = some v := by
  induction m with
  | nil => simp [hGet, hSet]
  | cons kv rest ih =>
    obtain ⟨k', w⟩ := kv
    by_cases h : k' = k
    · simp [hGet, hSet, h]
    · simp [hGet, hSet, h, ih]

theorem addWordToHistory_mem (s : Settings) (L w : List Char)
    (h : toLowerStr w ∈ getWordHistory s L) : addWordToHistory s L w = s := by
  unfold addWordToHistory
  unfold getWordHistory at h
  simp [h]

theorem addWordToHistory_not_mem (s : Settings) (L w : List Char)
    (h : toLowerStr w ∉ getWordHistory s L) :
    getWordHistory (addWordToHistory s L w) L =
      (if effLimit s < (getWordHistory s L ++ [toLowerStr w]).length then
        (getWordHistory s L ++ [toLowerStr w]).drop
          ((getWordHistory s L ++ [toLowerStr w]).length - effLimit s)
      else getWordHistory s L ++ [toLowerStr w]) := by
  unfold addWordToHistory
  unfold getWordHistory at h ⊢
  simp [h, hGet_hSet_self]

theorem wordHistoryLimit_addWordToHistory (s : Settings) (L w : List Char) :
    (addWordToHistory s L w).wordHistoryLimit = s.wordHistoryLimit := by
  by_cases h : toLowerStr w ∈ (hGet s.wordHistory L).getD []
  · simp [addWordToHistory, h]
  · simp [addWordToHistory, h]

theorem effLimit_addWordToHistory (s : Settings) (L w : List Char) :
    effLimit (addWordToHistory s L w) = effLimit s := by
  unfold effLimit
  rw [wordHistoryLimit_addWordToHistory]

theorem effLimit_pos (s : Settings) : 0 < effLimit s := by
  unfold effLimit
  split <;> omega

/-- C5: recording the same word twice (up to letter case) is idempotent: the
second call leaves the settings unchanged, and when the language's list held
the lowercase form at most once before, it holds it exactly once after. -/
theorem addWordToHistory_idem (s : Settings) (L w w' : List Char)
    (hcase : toLowerStr w' = toLowerStr w)
    (hinv : (getWordHistory s L).count (toLowerStr w) ≤ 1) :
    addWordToHistory (addWordToHistory s L w) L w' = addWordToHistory s L w ∧
    (getWordHistory (addWordToHistory s L w) L).count (toLowerStr w) = 1 := by
  by_cases hmem : toLowerStr w ∈ getWordHistory s L
  · have e1 : addWordToHistory s L w = s := addWordToHistory_mem s L w hmem
    rw [e1]
    constructor
    · exact addWordToHistory_mem s L w' (hcase ▸ hmem)
    · have hpos : 0 < (getWordHistory s L).count (toLowerStr w) :=
        List.count_pos_iff.mpr hmem
      omega
  · have e1 := addWordToHistory_not_mem s L w hmem
    have hc0 : (getWordHistory s L).count (toLowerStr w) = 0 :=
      List.count_eq_zero_of_not_mem hmem
    have key : (getWordHistory (addWordToHistory s L w) L).count (toLowerStr w) = 1 ∧
        toLowerStr w ∈ getWordHistory (addWordToHistory s L w) L := by
      rw [e1]
      split
      · rename_i hov
        set h1 := getWordHistory s L ++ [toLowerStr w] with hh1
        have hk : h1.length - effLimit s ≤ (getWordHistory s L).length := by
          have := effLimit_pos s
          simp [hh1]
          omega
        rw [hh1, List.drop_append_of_le_length hk]
        have hdc : ((getWordHistory s L).drop (h1.length - effLimit s)).count
            (toLowerStr w) = 0 := by
          have hsub := (List.drop_sublist (h1.length - effLimit s)
            (getWordHistory s L)).count_le (toLowerStr w)
          omega
        constructor
        · simp [List.count_append, hdc]
        · simp
      · constructor
        · simp [List.count_append, hc0]
        · simp
    refine ⟨?_, key.1⟩
    exact addWordToHistory_mem _ L w' (hcase ▸ key.2)

/-- C5 witness: recording `Serendipity` then `SERENDIPITY` on a fresh
history. -/
theorem addWordToHistory_idem_witness :
    addWordToHistory
        (addWordToHistory sampleSettings (("English").data) (("Serendipity").data))
        (("English").data) (("SERENDIPITY").data) =
      addWordToHistory sampleSettings (("English").data) (("Serendipity").data) ∧
    (getWordHistory
        (addWordToHistory sampleSettings (("English").data) (("Serendipity").data))
        (("English").data)).count (toLowerStr (("Serendipity").data)) = 1 :=
  addWordToHistory_idem sampleSettings (("English").data) (("Serendipity").data)
    (("SERENDIPITY").data) (by decide) (by decide)

/-- Insert a sequence of words for one language, via `addWordToHistory`. -/
def recordRun (s : Settings) (L : List Char) (ws : List (List Char)) : Settings :=
  ws.foldl (fun acc w => addWordToHistory acc L w) s

theorem recordRun_cons (s : Settings) (L w : List Char) (ws : List (List Char)) :
    recordRun s L (w :: ws) = recordRun (addWordToHistory s L w) L ws := rfl

theorem recordRun_no_trunc (L : List Char) (ws : List (List Char)) :
    ∀ s : Settings,
    (∀ x ∈ ws, toLowerStr x ∉ getWordHistory s L) →
    (ws.map toLowerStr).Nodup →
    (getWordHistory s L).length + ws.length ≤ effLimit s →
    getWordHistory (recordRun s L ws) L = getWordHistory s L ++ ws.map toLowerStr ∧
    effLimit (recordRun s L ws) = effLimit s := by
  induction ws with
  | nil => intro s _ _ _; exact ⟨by simp [recordRun], rfl⟩
  | cons w rest ih =>
    intro s hfresh hnd hlen
    simp only [List.length_cons] at hlen
    have hw : toLowerStr w ∉ getWordHistory s L := hfresh w (List.mem_cons_self w rest)
    have e1 : getWordHistory (addWordToHistory s L w) L =
        getWordHistory s L ++ [toLowerStr w] := by
      rw [addWordToHistory_not_mem s L w hw, if_neg]
      simp only [List.length_append, List.length_singleton, not_lt]
      omega
    have hndc : (toLowerStr w ∉ rest.map toLowerStr) ∧ (rest.map toLowerStr).Nodup := by
      rw [List.map_cons, List.nodup_cons] at hnd
      exact hnd
    have hfresh' : ∀ x ∈ rest,
        toLowerStr x ∉ getWordHistory (addWordToHistory s L w) L := by
      intro x hx
      rw [e1]
      simp only [List.mem_append, List.mem_singleton, not_or]
      refine ⟨hfresh x (List.mem_cons_of_mem w hx), ?_⟩
      intro hcontra
      exact hndc.1 (hcontra ▸ List.mem_map_of_mem toLowerStr hx)
    have hlim1 := effLimit_addWordToHistory s L w
    have hlen' : (getWordHistory (addWordToHistory s L w) L).length + rest.length ≤
        effLimit (addWordToHistory s L w) := by
      rw [e1, hlim1]
      simp only [List.length_append, List.length_singleton]
      omega
    obtain ⟨ha, hb⟩ := ih (addWordToHistory s L w) hfresh' hndc.2 hlen'
    constructor
    · rw [recordRun_cons, ha, e1]
      simp [List.append_assoc]
    · rw [recordRun_cons, hb, hlim1]

theorem recordRun_overflow (L : List Char) (s : Settings) (front : List (List Char))
    (wl : List Char)
    (hfresh : ∀ x ∈ front ++ [wl], toLowerStr x ∉ getWordHistory s L)
    (hnd : ((front ++ [wl]).map toLowerStr).Nodup)
    (hlen : (getWordHistory s L).length + front.length = effLimit s) :
    getWordHistory (recordRun s L (front ++ [wl])) L =
      ((getWordHistory s L ++ front.map toLowerStr).drop 1) ++ [toLowerStr wl] := by
  rw [List.map_append] at hnd
  have hfr : ∀ x ∈ front, toLowerStr x ∉ getWordHistory s L :=
    fun x hx => hfresh x (List.mem_append_left _ hx)
  have hndf : (front.map toLowerStr).Nodup := (List.nodup_append.mp hnd).1
  obtain ⟨ha, hb⟩ := recordRun_no_trunc L front s hfr hndf (le_of_eq hlen)
  have hsplit : recordRun s L (front ++ [wl]) =
      addWordToHistory (recordRun s L front) L wl := by
    unfold recordRun
    rw [List.foldl_append]
    rfl
  rw [hsplit]
  have hwl : toLowerStr wl ∉ getWordHistory (recordRun s L front) L := by
    rw [ha]
    simp only [List.mem_append, not_or]
    refine ⟨hfresh wl (by simp), ?_⟩
    intro hmem
    exact (List.nodup_append.mp hnd).2.2 hmem (by simp)
  rw [addWordToHistory_not_mem _ L wl hwl, ha, hb]
  have hpos := effLimit_pos s
  rw [if_pos (by simp only [List.length_append, List.length_singleton, List.length_map]; omega)]
  have hlen2 : (getWordHistory s L ++ front.map toLowerStr ++ [toLowerStr wl]).length -
      effLimit s = 1 := by
    simp only [List.length_append, List.length_singleton, List.length_map]
    omega
  rw [hlen2, List.drop_append_of_le_length
    (by simp only [List.length_append, List.length_map]; omega)]

/-- C6 counterexample: with limit 1 and the pairwise-distinct words
`a`, `A`, the second insert is a no-op (case-insensitive dedup), so the
oldest inserted word `a` is still present afterwards, contradicting the
claimed eviction. -/
theorem history_eviction_distinct_words_cex :
    (("a").data ≠ ("A").data) ∧
    getWordHistory
      (recordRun { sampleSettings with wordHistoryLimit := 1 } (("English").data)
        [("a").data, ("A").data]) (("English").data) = [("a").data] ∧
    ("a").data ∈ getWordHistory
      (recordRun { sampleSettings with wordHistoryLimit := 1 } (("English").data)
        [("a").data, ("A").data]) (("English").data) := by
  decide

/-- C6 (amended): starting from an empty history for the language, inserting
limit + 1 words whose lowercase forms are pairwise distinct leaves exactly
the last `limit` lowercase forms in insertion order, and the oldest inserted
word's lowercase form is gone. -/
theorem history_eviction (s : Settings) (L w₀ : List Char) (rest : List (List Char))
    (h0 : getWordHistory s L = [])
    (hnd : ((w₀ :: rest).map toLowerStr).Nodup)
    (hlen : rest.length = effLimit s) :
    getWordHistory (recordRun s L (w₀ :: rest)) L = rest.map toLowerStr ∧
    (getWordHistory (recordRun s L (w₀ :: rest)) L).length = effLimit s ∧
    toLowerStr w₀ ∉ getWordHistory (recordRun s L (w₀ :: rest)) L := by
  have hrne : rest ≠ [] := by
    intro h
    rw [h] at hlen
    have := effLimit_pos s
    simp at hlen
    omega
  have hsplit : w₀ :: rest = (w₀ :: rest.dropLast) ++ [rest.getLast hrne] := by
    rw [List.cons_append, List.dropLast_append_getLast hrne]
  have hfresh : ∀ x ∈ (w₀ :: rest.dropLast) ++ [rest.getLast hrne],
      toLowerStr x ∉ getWordHistory s L := by
    intro x _
    rw [h0]
    exact List.not_mem_nil _
  have hnd' : (((w₀ :: rest.dropLast) ++ [rest.getLast hrne]).map toLowerStr).Nodup := by
    rw [← hsplit]
    exact hnd
  have hrl : 0 < rest.length := List.length_pos.mpr hrne
  have hlen' : (getWordHistory s L).length + (w₀ :: rest.dropLast).length = effLimit s := by
    rw [h0]
    simp only [List.length_nil, List.length_cons, List.length_dropLast, Nat.zero_add]
    omega
  have hmain := recordRun_overflow L s (w₀ :: rest.dropLast) (rest.getLast hrne)
    hfresh hnd' hlen'
  rw [← hsplit] at hmain
  rw [h0, List.nil_append, List.map_cons, List.drop_one, List.tail_cons] at hmain
  have hrw : rest.dropLast.map toLowerStr ++ [toLowerStr (rest.getLast hrne)] =
      rest.map toLowerStr := by
    have hmap : List.map toLowerStr (rest.dropLast ++ [rest.getLast hrne]) =
        List.map toLowerStr rest := by
      rw [List.dropLast_append_getLast hrne]
    simpa [List.map_append] using hmap
  rw [hrw] at hmain
  have hhead : toLowerStr w₀ ∉ rest.map toLowerStr := by
    rw [List.map_cons, List.nodup_cons] at hnd
    exact hnd.1
  refine ⟨hmain, ?_, ?_⟩
  · rw [hmain]
    simp [hlen]
  · rw [hmain]
    exact hhead

/-- C6 witness: limit 2, inserting three distinct words on a fresh history. -/
theorem history_eviction_witness :
    getWordHistory
      (recordRun { sampleSettings with wordHistoryLimit := 2 } (("English").data)
        [("Aa").data, ("Bb").data, ("Cc").data]) (("English").data) =
      [("aa").data, ("bb").data, ("cc").data].tail ++ [("cc").data].tail ∧
    toLowerStr (("Aa").data) ∉ getWordHistory
      (recordRun { sampleSettings with wordHistoryLimit := 2 } (("English").data)
        [("Aa").data, ("Bb").data, ("Cc").data]) (("English").data) := by
  have h := history_eviction { sampleSettings with wordHistoryLimit := 2 }
    (("English").data) (("Aa").data) [("Bb").data, ("Cc").data] rfl (by decide) (by decide)
  exact ⟨h.1.trans (by decide), h.2.2⟩

/-! ### The Gemini bracket extraction -/

theorem geminiMatch_eq_some (xs m : List Char) (hm : geminiMatch xs = some m) :
    ∃ i j, firstIdxOf '[' xs = some i ∧ lastIdxOf ']' xs = some j ∧ i < j ∧
      m = (xs.drop i).take (j - i + 1) := by
  unfold geminiMatch at hm
  split at hm
  · rename_i i j hfi hli
    split at hm
    · rename_i hij
      exact ⟨i, j, hfi, hli, hij, (Option.some.inj hm).symm⟩
    · simp at hm
  · simp at hm

theorem firstIdxOf_spec (ch : Char) (xs : List Char) (i : Nat)
    (h : firstIdxOf ch xs = some i) :
    i < xs.length ∧ xs[i]? = some ch ∧ ∀ q, q < i → xs[q]? ≠ some ch := by
  unfold firstIdxOf at h
  rw [List.findIdx?_eq_some_iff_getElem] at h
  obtain ⟨hlt, hp, hprev⟩ := h
  refine ⟨hlt, ?_, ?_⟩
  · have hv : xs[i] = ch := by simpa using hp
    rw [List.getElem?_eq_getElem hlt, hv]
  · intro q hq
    have hqlt : q < xs.length := Nat.lt_trans hq hlt
    have hne := hprev q hq
    rw [List.getElem?_eq_getElem hqlt]
    intro hcontra
    apply hne
    simp only [Option.some.injEq] at hcontra
    simpa using hcontra

theorem lastIdxOf_spec (ch : Char) (xs : List Char) (j : Nat)
    (h : lastIdxOf ch xs = some j) :
    j < xs.length ∧ xs[j]? = some ch ∧ ∀ q, j < q → xs[q]? ≠ some ch := by
  unfold lastIdxOf at h
  cases hk : xs.reverse.findIdx? (fun x => x = ch) with
  | none => rw [hk] at h; simp at h
  | some k =>
    rw [hk] at h
    simp only [Option.some.injEq] at h
    subst h
    rw [List.findIdx?_eq_some_iff_getElem] at hk
    obtain ⟨hklt, hp, hprev⟩ := hk
    have hklen : k < xs.length := by simpa using hklt
    have hval : xs.reverse[k]? = some ch := by
      rw [List.getElem?_eq_getElem hklt]
      simpa using hp
    have hcj : xs[xs.length - 1 - k]? = some ch := by
      rw [← List.getElem?_reverse hklen]
      exact hval
    refine ⟨by omega, hcj, ?_⟩
    intro q hq
    by_cases hql : q < xs.length
    · have hr : xs.length - 1 - q < k := by omega
      have hrevne : xs.reverse[xs.length - 1 - q]? ≠ some ch := by
        have hprev' := hprev (xs.length - 1 - q) hr
        rw [List.getElem?_eq_getElem (by simpa using Nat.lt_trans hr hklt)]
        intro hcontra
        apply hprev'
        simp only [Option.some.injEq] at hcontra
        simpa using hcontra
      rw [List.getElem?_reverse (by omega : xs.length - 1 - q < xs.length)] at hrevne
      have hqq : xs.length - 1 - (xs.length - 1 - q) = q := by omega
      rw [hqq] at hrevne
      exact hrevne
    · rw [List.getElem?_eq_none (by omega)]
      simp

/-- Modelled from the spec: the claim's notion of "the first well-formed
`[...]` bracketed substring" — the substring starting at the earliest
position (ties broken by shortest length) that begins with `[`, ends with
`]`, and parses as JSON. -/
def firstWellFormedBracket (s : List Char) : Option (List Char) :=
  ((List.range (s.length + 1)).flatMap (fun i =>
    (List.range (s.length + 1)).map (fun j => (s.drop i).take (j - i)))).find?
    (fun t => t.head? == some '[' && t.getLast? == some ']' && (parseJson t).isSome)

/-- C3 counterexample: on `[1] and [2]` the first well-formed bracketed
substring is `[1]` (which parses fine), but the adapter's greedy regex grabs
the whole `[1] and [2]` span and fails at the parse stage instead of parsing
`[1]`. -/
theorem gemini_first_bracket_cex :
    firstWellFormedBracket (("[1] and [2]").data) = some (("[1]").data) ∧
    parseJson (("[1]").data) = some (jarr [.num ("1").data]) ∧
    geminiMatch (("[1] and [2]").data) = some (("[1] and [2]").data) ∧
    fetchWordsFromGemini (some (("[1] and [2]").data)) = .error .parse :=
  ⟨rfl, rfl, rfl, rfl⟩

/-- C3 (amended): the Gemini adapter extracts the segment from the first `[`
to the last `]` (the leftmost-greedy regex match): the match decomposes the
text as `pre ++ m ++ post` with no `[` before it and no `]` after it, begins
with `[`, ends with `]`, and exactly that segment is parsed as JSON; when no
such segment exists the adapter fails with a shape-stage error. -/
theorem gemini_greedy_extract (xs : List Char) (hcne : xs ≠ []) :
    (∀ m, geminiMatch xs = some m →
      ∃ pre post, xs = pre ++ m ++ post ∧ '[' ∉ pre ∧ ']' ∉ post ∧
        m.head? = some '[' ∧ m.getLast? = some ']' ∧
        fetchWordsFromGemini (some xs) =
          (match parseJson m with
           | none => Except.error Stage.parse
           | some j => if j.isArr then Except.ok j.elems else Except.error Stage.shape)) ∧
    (geminiMatch xs = none → fetchWordsFromGemini (some xs) = Except.error Stage.shape) := by
  have hice : xs.isEmpty = false := by
    cases xs with
    | nil => exact absurd rfl hcne
    | cons a t => rfl
  constructor
  · intro m hm
    obtain ⟨i, j, hfi, hli, hij, hmm⟩ := geminiMatch_eq_some xs m hm
    obtain ⟨hilt, hci, hipre⟩ := firstIdxOf_spec '[' xs i hfi
    obtain ⟨hjlt, hcj, hjpost⟩ := lastIdxOf_spec ']' xs j hli
    refine ⟨xs.take i, xs.drop (j + 1), ?_, ?_, ?_, ?_, ?_, ?_⟩
    · subst hmm
      have h2 : xs.drop (j + 1) = (xs.drop i).drop (j - i + 1) := by
        rw [List.drop_drop]
        congr 1
        omega
      rw [List.append_assoc, h2, List.take_append_drop, List.take_append_drop]
    · intro hmem
      rw [List.mem_iff_getElem?] at hmem
      obtain ⟨q, hq⟩ := hmem
      by_cases hqi : q < i
      · rw [List.getElem?_take_of_lt hqi] at hq
        exact hipre q hqi hq
      · have hnone : (xs.take i)[q]? = none :=
          List.getElem?_eq_none (by simp only [List.length_take]; omega)
        rw [hnone] at hq
        cases hq
    · intro hmem
      rw [List.mem_iff_getElem?] at hmem
      obtain ⟨q, hq⟩ := hmem
      rw [List.getElem?_drop] at hq
      exact hjpost (j + 1 + q) (by omega) hq
    · subst hmm
      rw [List.head?_eq_getElem?,
        List.getElem?_take_of_lt (by omega : 0 < j - i + 1), List.getElem?_drop]
      simpa using hci
    · subst hmm
      rw [List.getLast?_eq_getElem?]
      have hlenm : ((xs.drop i).take (j - i + 1)).length = j - i + 1 := by
        simp only [List.length_take, List.length_drop]
        omega
      rw [hlenm]
      have he1 : j - i + 1 - 1 = j - i := by omega
      rw [he1, List.getElem?_take_of_lt (by omega : j - i < j - i + 1),
        List.getElem?_drop]
      have he2 : i + (j - i) = j := by omega
      rw [he2]
      exact hcj
    · simp [fetchWordsFromGemini, hice, hm]
  · intro hm
    simp [fetchWordsFromGemini, hice, hm]

/-- C3 witness: the amended theorem applied to `x[1]y`. -/
theorem gemini_greedy_extract_witness :
    ∃ pre post, ("x[1]y").data = pre ++ ("[1]").data ++ post ∧ '[' ∉ pre ∧
      ']' ∉ post ∧ (("[1]").data).head? = some '[' ∧
      (("[1]").data).getLast? = some ']' ∧
      fetchWordsFromGemini (some (("x[1]y").data)) =
        (match parseJson (("[1]").data) with
         | none => Except.error Stage.parse
         | some j => if j.isArr then Except.ok j.elems else Except.error Stage.shape) :=
  (gemini_greedy_extract (("x[1]y").data) (by decide)).1 (("[1]").data) rfl

/-! ### Prompt builder lines -/

theorem splitLines_ne_nil (s : List Char) : splitLines s ≠ [] := by
  cases s with
  | nil => simp [splitLines]
  | cons ch rest =>
    unfold splitLines
    by_cases h : ch = '\n'
    · simp [h]
    · simp only [h, if_false]
      cases hs : splitLines rest with
      | nil => simp
      | cons l ls => simp

theorem splitLines_cons_nl (b : List Char) : splitLines ('\n' :: b) = [] :: splitLines b := by
  simp [splitLines]

theorem splitLines_append_nl (a b : List Char) :
    splitLines (a ++ '\n' :: b) = splitLines a ++ splitLines b := by
  induction a with
  | nil => simp [splitLines]
  | cons ch a' ih =>
    by_cases h : ch = '\n'
    · subst h
      rw [List.cons_append, splitLines_cons_nl, splitLines_cons_nl, ih]
      rfl
    · rw [List.cons_append]
      simp only [splitLines, h, if_false]
      rw [ih]
      cases hs : splitLines a' with
      | nil => exact absurd hs (splitLines_ne_nil a')
      | cons l ls => simp

theorem splitLines_no_nl (a : List Char) (h : '\n' ∉ a) : splitLines a = [a] := by
  induction a with
  | nil => rfl
  | cons ch a' ih =>
    have hch : ch ≠ '\n' := fun hc => h (hc ▸ List.mem_cons_self ch a')
    have ha' : '\n' ∉ a' := fun hc => h (List.mem_cons_of_mem ch hc)
    unfold splitLines
    simp only [hch, if_false]
    rw [ih ha']

theorem splitLines_joinSep_nl (xs : List (List Char)) (hne : xs ≠ []) :
    splitLines (joinSep ['\n'] xs) = xs.flatMap splitLines := by
  induction xs with
  | nil => exact absurd rfl hne
  | cons x rest ih =>
    cases rest with
    | nil => simp [joinSep]
    | cons y t =>
      have : joinSep ['\n'] (x :: y :: t) = x ++ '\n' :: joinSep ['\n'] (y :: t) := by
        simp [joinSep]
      rw [this, splitLines_append_nl, ih (by simp)]
      rfl

/-- The avoid-these line emitted under a bullet when history exists. -/
def avoidLine (h : List (List Char)) : List Char :=
  ("  Previously used words to AVOID: ").data ++ joinSep (", ").data (recentWords h)

theorem languageRequest_eq (s : Settings) (l : LanguageConfig) :
    languageRequest s l =
      if 0 < (getWordHistory s l.name).length then
        bulletLine l ++ '\n' :: avoidLine (getWordHistory s l.name)
      else bulletLine l := by
  by_cases h : 0 < (getWordHistory s l.name).length
  · simp only [languageRequest, avoidLine, if_pos h]
    simp [List.append_assoc]
  · simp only [languageRequest, if_neg h]

theorem nl_not_mem_diffStr (d : Difficulty) : '\n' ∉ diffStr d := by
  cases d <;> decide

theorem nl_not_mem_bulletLine (l : LanguageConfig) (hn : '\n' ∉ l.name) :
    '\n' ∉ bulletLine l := by
  unfold bulletLine
  simp only [List.mem_append, not_or]
  exact ⟨⟨⟨⟨by decide, hn⟩, by decide⟩, nl_not_mem_diffStr l.difficulty⟩, by decide⟩

theorem nl_not_mem_joinSep_comma (xs : List (List Char))
    (h : ∀ x ∈ xs, '\n' ∉ x) : '\n' ∉ joinSep (", ").data xs := by
  induction xs with
  | nil => simp [joinSep]
  | cons x rest ih =>
    cases rest with
    | nil => simpa [joinSep] using h x (by simp)
    | cons y t =>
      have hx := h x (by simp)
      have hrest : ∀ z ∈ y :: t, '\n' ∉ z := fun z hz => h z (List.mem_cons_of_mem x hz)
      simp only [joinSep, List.mem_append, not_or]
      exact ⟨⟨hx, by decide⟩, ih hrest⟩

theorem nl_not_mem_avoidLine (hist : List (List Char))
    (h : ∀ w ∈ hist, '\n' ∉ w) : '\n' ∉ avoidLine hist := by
  unfold avoidLine
  simp only [List.mem_append, not_or]
  refine ⟨by decide, nl_not_mem_joinSep_comma _ ?_⟩
  intro x hx
  exact h x (List.mem_of_mem_drop hx)

theorem splitLines_languageRequest (s : Settings) (l : LanguageConfig)
    (hn : '\n' ∉ l.name) (hh : ∀ w ∈ getWordHistory s l.name, '\n' ∉ w) :
    splitLines (languageRequest s l) =
      if 0 < (getWordHistory s l.name).length then
        [bulletLine l, avoidLine (getWordHistory s l.name)]
      else [bulletLine l] := by
  rw [languageRequest_eq]
  split
  · rw [splitLines_append_nl, splitLines_no_nl _ (nl_not_mem_bulletLine l hn),
      splitLines_no_nl _ (nl_not_mem_avoidLine _ hh)]
    rfl
  · exact splitLines_no_nl _ (nl_not_mem_bulletLine l hn)

theorem bulletLine_getLast (l : LanguageConfig) : (bulletLine l).getLast? = some ')' := by
  unfold bulletLine
  rw [List.getLast?_append_of_ne_nil _ (by decide)]
  rfl

theorem bulletLine_ne_avoidLine (l : LanguageConfig) (hist : List (List Char)) :
    avoidLine hist ≠ bulletLine l := by
  intro heq
  have h1 : (avoidLine hist).head? = some ' ' := rfl
  have h2 : (bulletLine l).head? = some '-' := rfl
  rw [heq, h2] at h1
  exact absurd h1 (by decide)

theorem bulletLine_inj (l1 l2 : LanguageConfig) (h : bulletLine l1 = bulletLine l2) :
    l1.name = l2.name ∧ l1.difficulty = l2.difficulty := by
  obtain ⟨n1, d1, e1⟩ := l1
  obtain ⟨n2, d2, e2⟩ := l2
  unfold bulletLine at h
  simp only at h
  have h1 : ("- ").data ++ n1 ++ (" (").data ++ diffStr d1 =
      ("- ").data ++ n2 ++ (" (").data ++ diffStr d2 :=
    List.append_cancel_right h
  have hd : d1 = d2 := by
    have hl := congrArg List.getLast? h1
    rw [List.getLast?_append_of_ne_nil _ (by cases d1 <;> decide),
      List.getLast?_append_of_ne_nil _ (by cases d2 <;> decide)] at hl
    revert hl
    cases d1 <;> cases d2 <;> decide
  subst hd
  have h2 : ("- ").data ++ n1 ++ (" (").data = ("- ").data ++ n2 ++ (" (").data :=
    List.append_cancel_right h1
  have h3 : ("- ").data ++ n1 = ("- ").data ++ n2 := List.append_cancel_right h2
  exact ⟨List.append_cancel_left h3, rfl⟩

theorem count_bulletLine_request (s : Settings) (lt l' : LanguageConfig)
    (hn : '\n' ∉ l'.name) (hh : ∀ w ∈ getWordHistory s l'.name, '\n' ∉ w) :
    (splitLines (languageRequest s l')).count (bulletLine lt) =
      if bulletLine l' = bulletLine lt then 1 else 0 := by
  rw [splitLines_languageRequest s l' hn hh]
  split
  · simp [List.count_cons, List.count_nil, beq_iff_eq,
      bulletLine_ne_avoidLine lt (getWordHistory s l'.name)]
  · simp [List.count_cons, List.count_nil, beq_iff_eq]

theorem count_bulletLine_requests (s : Settings) (lt : LanguageConfig)
    (es : List LanguageConfig)
    (hwf : ∀ l' ∈ es, '\n' ∉ l'.name ∧ ∀ w ∈ getWordHistory s l'.name, '\n' ∉ w) :
    (es.flatMap (fun l' => splitLines (languageRequest s l'))).count (bulletLine lt) =
      (es.map bulletLine).count (bulletLine lt) := by
  induction es with
  | nil => rfl
  | cons e rest ih =>
    rw [List.flatMap_cons, List.count_append, List.map_cons, List.count_cons]
    rw [count_bulletLine_request s lt e (hwf e (by simp)).1 (hwf e (by simp)).2]
    rw [ih (fun l' hl' => hwf l' (List.mem_cons_of_mem e hl'))]
    simp [beq_iff_eq, Nat.add_comm]

theorem count_map_bulletLine (es : List LanguageConfig) (lt : LanguageConfig)
    (hinj : ∀ l' ∈ es, bulletLine l' = bulletLine lt → l' = lt) :
    (es.map bulletLine).count (bulletLine lt) = es.count lt := by
  induction es with
  | nil => rfl
  | cons e rest ih =>
    rw [List.map_cons, List.count_cons, List.count_cons,
      ih (fun l' h => hinj l' (List.mem_cons_of_mem e h))]
    congr 1
    by_cases he : e = lt
    · simp [he]
    · have hb : bulletLine e ≠ bulletLine lt := fun hb => he (hinj e (by simp) hb)
      simp [he, hb]

/-- The lines of the prompt a fetch builds (enabled languages only). -/
def promptLines (s : Settings) (vi : Fin 4) : List (List Char) :=
  splitLines (buildPrompt s (s.languages.filter (fun l => l.enabled)) vi)

theorem promptLines_decomp (s : Settings) (vi : Fin 4) :
    promptLines s vi =
      splitLines (variationAt vi).intro ++
      (splitLines (joinSep ['\n']
        ((s.languages.filter (fun l => l.enabled)).map (languageRequest s))) ++
      ([] :: (splitLines (variationAt vi).task ++
      ([] :: splitLines ((variationAt vi).emphasis ++ promptTail))))) := by
  unfold promptLines buildPrompt
  rw [show ("\n").data = ['\n'] from rfl, show ("\n\n").data = ['\n', '\n'] from rfl]
  simp only [List.append_assoc, List.cons_append, List.singleton_append, List.nil_append]
  rw [splitLines_append_nl (variationAt vi).intro, splitLines_append_nl
    (joinSep ['\n'] ((s.languages.filter (fun l => l.enabled)).map (languageRequest s))),
    splitLines_cons_nl, splitLines_append_nl (variationAt vi).task, splitLines_cons_nl]

theorem count_eq_zero_of_no_paren (a : List Char) (ha : a.getLast? = some ')')
    (xs : List (List Char)) (hxs : ∀ x ∈ xs, x.getLast? ≠ some ')') : xs.count a = 0 := by
  rw [List.count_eq_zero]
  intro hmem
  exact hxs a hmem ha

set_option maxRecDepth 20000 in
theorem fixed_lines_no_paren (vi : Fin 4) :
    (∀ x ∈ splitLines (variationAt vi).intro, x.getLast? ≠ some ')') ∧
    (∀ x ∈ splitLines (variationAt vi).task, x.getLast? ≠ some ')') ∧
    (∀ x ∈ splitLines ((variationAt vi).emphasis ++ promptTail), x.getLast? ≠ some ')') := by
  fin_cases vi <;> exact ⟨by decide, by decide, by decide⟩

/-- C8: the prompt built for a fetch contains exactly one bullet line per
enabled language, no bullet line for disabled languages, and an avoid-line
listing at most the 20 most recent words for each enabled language with
history — for every random phrasing variation.  (Language names are pairwise
distinct per the data model, and names and history words contain no
newline.) -/
theorem buildPrompt_bullets (s : Settings) (vi : Fin 4)
    (hnames : (s.languages.map (fun l => l.name)).Nodup)
    (hnl : ∀ l ∈ s.languages, '\n' ∉ l.name)
    (hhist : ∀ l ∈ s.languages, ∀ w ∈ getWordHistory s l.name, '\n' ∉ w) :
    (∀ l ∈ s.languages, l.enabled = true →
      (promptLines s vi).count (bulletLine l) = 1) ∧
    (∀ l ∈ s.languages, l.enabled = false →
      (promptLines s vi).count (bulletLine l) = 0) ∧
    (∀ l ∈ s.languages, l.enabled = true → getWordHistory s l.name ≠ [] →
      avoidLine (getWordHistory s l.name) ∈ promptLines s vi ∧
      (recentWords (getWordHistory s l.name)).length ≤ 20) := by
  obtain ⟨hfx1, hfx2, hfx3⟩ := fixed_lines_no_paren vi
  have hwf : ∀ l' ∈ s.languages.filter (fun l => l.enabled),
      '\n' ∉ l'.name ∧ ∀ w ∈ getWordHistory s l'.name, '\n' ∉ w := by
    intro l' hl'
    have hmem := List.mem_of_mem_filter hl'
    exact ⟨hnl l' hmem, hhist l' hmem⟩
  have hfm : ((s.languages.filter (fun l => l.enabled)).map (languageRequest s)).flatMap
        splitLines =
      (s.languages.filter (fun l => l.enabled)).flatMap
        (fun l' => splitLines (languageRequest s l')) := by
    rw [List.flatMap_map]
  have hz1 : ∀ lt : LanguageConfig,
      (splitLines (variationAt vi).intro).count (bulletLine lt) = 0 :=
    fun lt => count_eq_zero_of_no_paren _ (bulletLine_getLast lt) _ hfx1
  have hz2 : ∀ lt : LanguageConfig,
      (splitLines (variationAt vi).task).count (bulletLine lt) = 0 :=
    fun lt => count_eq_zero_of_no_paren _ (bulletLine_getLast lt) _ hfx2
  have hz3 : ∀ lt : LanguageConfig,
      (splitLines ((variationAt vi).emphasis ++ promptTail)).count (bulletLine lt) = 0 :=
    fun lt => count_eq_zero_of_no_paren _ (bulletLine_getLast lt) _ hfx3
  have hbne : ∀ lt : LanguageConfig, (([] : List Char) == bulletLine lt) = false := by
    intro lt
    have hne : bulletLine lt ≠ [] := by
      intro h
      have h2 := congrArg List.head? h
      rw [show (bulletLine lt).head? = some '-' from rfl] at h2
      simp at h2
    simp only [beq_eq_false_iff_ne, ne_eq]
    exact fun h => hne h.symm
  have hcount : ∀ lt ∈ s.languages,
      (promptLines s vi).count (bulletLine lt) =
        (s.languages.filter (fun l => l.enabled)).count lt := by
    intro lt hlt
    have hinj : ∀ l' ∈ s.languages.filter (fun l => l.enabled),
        bulletLine l' = bulletLine lt → l' = lt := by
      intro l' hl' hb
      exact List.inj_on_of_nodup_map hnames (List.mem_of_mem_filter hl') hlt
        (bulletLine_inj l' lt hb).1
    rw [promptLines_decomp]
    simp only [List.count_append, List.count_cons, hbne lt, Bool.false_eq_true,
      if_false, hz1 lt, hz2 lt, hz3 lt]
    by_cases hesne : s.languages.filter (fun l => l.enabled) = []
    · rw [hesne]
      simp [joinSep, splitLines, List.count_cons, List.count_nil, hbne lt]
    · rw [splitLines_joinSep_nl _ (by simpa using hesne), hfm,
        count_bulletLine_requests s lt _ hwf, count_map_bulletLine _ lt hinj]
      omega
  refine ⟨?_, ?_, ?_⟩
  · intro l hl he
    rw [hcount l hl]
    have hnd : (s.languages.filter (fun l => l.enabled)).Nodup :=
      (List.Nodup.of_map _ hnames).filter _
    exact List.count_eq_one_of_mem hnd (List.mem_filter.mpr ⟨hl, he⟩)
  · intro l hl he
    rw [hcount l hl]
    apply List.count_eq_zero_of_not_mem
    intro hmem
    have h2 := (List.mem_filter.mp hmem).2
    rw [he] at h2
    simp at h2
  · intro l hl he hne
    refine ⟨?_, ?_⟩
    · have hmem : l ∈ s.languages.filter (fun l => l.enabled) :=
        List.mem_filter.mpr ⟨hl, he⟩
      rw [promptLines_decomp, splitLines_joinSep_nl _
        (by simpa using List.ne_nil_of_mem hmem), hfm]
      refine List.mem_append.mpr (Or.inr (List.mem_append.mpr (Or.inl ?_)))
      refine List.mem_flatMap.mpr ⟨l, hmem, ?_⟩
      rw [splitLines_languageRequest s l (hnl l hl) (hhist l hl),
        if_pos (List.length_pos.mpr hne)]
      simp
    · unfold recentWords
      rw [List.length_drop]
      omega

/-- C8 witness: two languages (one disabled), history for the enabled one,
variation 0. -/
theorem buildPrompt_bullets_witness :
    ((promptLines
        { sampleSettingsKey with
            wordHistory := [((("English").data), [("aa").data])]
            languages := [⟨("English").data, .Fluent, true⟩,
              ⟨("Spanish").data, .Beginner, false⟩] } 0).count
      (bulletLine ⟨("English").data, .Fluent, true⟩) = 1) ∧
    ((promptLines
        { sampleSettingsKey with
            wordHistory := [((("English").data), [("aa").data])]
            languages := [⟨("English").data, .Fluent, true⟩,
              ⟨("Spanish").data, .Beginner, false⟩] } 0).count
      (bulletLine ⟨("Spanish").data, .Beginner, false⟩) = 0) ∧
    avoidLine [("aa").data] ∈ promptLines
        { sampleSettingsKey with
            wordHistory := [((("English").data), [("aa").data])]
            languages := [⟨("English").data, .Fluent, true⟩,
              ⟨("Spanish").data, .Beginner, false⟩] } 0 := by
  have h := buildPrompt_bullets
    { sampleSettingsKey with
        wordHistory := [((("English").data), [("aa").data])]
        languages := [⟨("English").data, .Fluent, true⟩,
          ⟨("Spanish").data, .Beginner, false⟩] } 0
    (by decide) (by decide) (by decide)
  refine ⟨h.1 _ (by decide) rfl, h.2.1 _ (by decide) rfl, ?_⟩
  have h3 := (h.2.2 ⟨("English").data, .Fluent, true⟩ (by decide) rfl (by decide)).1
  exact h3
